import Mathlib

/-!
Verification of the computational core of `src/app.py` (financial dashboard):
return calculation, descriptive statistics, moving-average signal generation
and backtest equity simulation.  Prices and returns are embedded as exact
rationals (`ℚ`); an undefined (NaN) element of a pandas series is `none`;
real-valued statistics (standard deviation, skewness) live in `ℝ`.
-/

namespace App

/-- Embeds `df['Close'].pct_change()` (src/app.py line 66): element 0 is
undefined (NaN), element `t` is `closeₜ / closeₜ₋₁ - 1`, which is pandas's
`df / df.shift(1) - 1` formula. -/
def pct_change (closes : List ℚ) : List (Option ℚ) :=
  (List.range closes.length).map fun t =>
    if t = 0 then none else some (closes.getD t 0 / closes.getD (t - 1) 0 - 1)

/-- IEEE-754 value classes produced by `np.log(df['Close'] / df['Close'].shift(1))`
(src/app.py line 68): a finite float, `+inf`, `-inf`, or NaN (pandas's
"undefined"). -/
inductive LogRetClass where
  | finite
  | posInf
  | negInf
  | nan
deriving DecidableEq, Repr

/-- Value class of `np.log(cur / prev)` for one element, following
numpy float semantics: `cur/0` is `+inf`/`-inf`/NaN by the sign of `cur`
(`0/0` is NaN), `log(+inf) = +inf`, `log(-inf) = log(NaN) = NaN`,
`log r` for finite `r` is finite when `r > 0`, `-inf` when `r = 0`,
NaN when `r < 0`. -/
def logReturnClass (prev cur : ℚ) : LogRetClass :=
  if prev = 0 then
    if 0 < cur then .posInf else .nan
  else if 0 < cur / prev then .finite
  else if cur / prev = 0 then .negInf
  else .nan

/-- Value classes of the whole logarithmic return series
`np.log(df['Close'] / df['Close'].shift(1))` (src/app.py line 68):
element 0 is NaN (shift introduces NaN, and NaN propagates), element `t`
is classified from the pair `(closeₜ₋₁, closeₜ)` alone. -/
def logReturnClassSeries (closes : List ℚ) : List LogRetClass :=
  (List.range closes.length).map fun t =>
    if t = 0 then .nan
    else logReturnClass (closes.getD (t - 1) 0) (closes.getD t 0)

/-- Numeric value of the logarithmic return series (src/app.py line 68)
on the domain where it is an ordinary real: `log(closeₜ / closeₜ₋₁)`.
This is the real-valued view of the same source line whose IEEE value
classes `logReturnClassSeries` records; for strictly positive closes the
two agree (every element past the first is `finite`). -/
noncomputable def logReturns (closes : List ℚ) : List (Option ℝ) :=
  (List.range closes.length).map fun t =>
    if t = 0 then none
    else some (Real.log ((closes.getD t 0 : ℝ) / (closes.getD (t - 1) 0 : ℝ)))

/-- Embeds `df['Close'].rolling(window=w).mean()` (src/app.py lines 80, 108,
there with `w = 20` and `w = 50`): undefined until a full window of `w`
observations exists, then the arithmetic mean of the window ending at `t`. -/
def rollingMean (closes : List ℚ) (w : ℕ) : List (Option ℚ) :=
  (List.range closes.length).map fun t =>
    if t + 1 < w then none
    else some (((closes.drop (t + 1 - w)).take w).sum / (w : ℚ))

/-- Embeds src/app.py lines 110-111: `df['Signal'] = 0` then
`df.loc[df['SMA20'] > df['SMA50'], 'Signal'] = 1`.  A pandas comparison
with NaN is `False`, so any position where either moving average is
undefined keeps the initial 0. -/
def signalSeries (fast slow : List (Option ℚ)) : List ℤ :=
  List.zipWith
    (fun f s =>
      match f, s with
      | some a, some b => if b < a then 1 else 0
      | _, _ => 0)
    fast slow

/-- Embeds `df['Signal'].shift(1) * df['Returns']` (src/app.py line 112).
`shift(1)` puts NaN at index 0, so element 0 is undefined; elsewhere a NaN
factor (an undefined return) makes the product NaN, and otherwise the
product is `signalₜ₋₁ * returnₜ`.  `signal` and `returns` share the
DataFrame index, so they have equal length. -/
def strat_ret (signal : List ℤ) (returns : List (Option ℚ)) : List (Option ℚ) :=
  (List.range returns.length).map fun t =>
    if t = 0 then none
    else (returns.getD t none).map fun r => (signal.getD (t - 1) 0 : ℚ) * r

/-- Running inclusive product, pandas's `.cumprod()`. -/
def cumprod (l : List ℚ) : List ℚ :=
  (l.scanl (· * ·) 1).tail

/-- Embeds `init * (1 + strat.fillna(0)).cumprod()` — src/app.py line 113
builds the equity curve this way with the initial capital hard-coded to
`1000`; the constant is the parameter `init` here. -/
def equityCurve (init : ℚ) (strat : List (Option ℚ)) : List ℚ :=
  (cumprod (strat.map fun o => 1 + o.getD 0)).map (init * ·)

/-- The backtest simulator (src/app.py lines 112-113): lag the signal by
one period, multiply by the returns, treat undefined strategy returns as 0,
compound, and scale by the initial capital. -/
def simulate (signal : List ℤ) (returns : List (Option ℚ)) (init : ℚ) : List ℚ :=
  equityCurve init (strat_ret signal returns)

/-- Embeds the `Performance` metric of src/app.py line 118:
`(final_val - 1000) / 10`, where 1000 is the hard-coded initial capital. -/
def performance (finalVal : ℚ) : ℚ :=
  (finalVal - 1000) / 10

/-- `np.mean`: arithmetic mean. -/
def npMean (l : List ℚ) : ℚ := l.sum / l.length

/-- `np.median`: middle element of the sorted data for odd length, average
of the two middle elements for even length. -/
def npMedian (l : List ℚ) : ℚ :=
  let s := l.insertionSort (· ≤ ·)
  if l.length % 2 = 1 then s.getD (l.length / 2) 0
  else (s.getD (l.length / 2 - 1) 0 + s.getD (l.length / 2) 0) / 2

/-- `k`-th central moment: mean of `(x - mean)^k`. -/
def momentC (l : List ℚ) (k : ℕ) : ℚ :=
  ((l.map fun x => (x - npMean l) ^ k).sum) / l.length

/-- `np.std` with its default `ddof=0`: square root of the mean squared
deviation (population standard deviation, divisor `n`). -/
noncomputable def npStd (l : List ℚ) : ℝ :=
  Real.sqrt (momentC l 2)

/-- `scipy.stats.skew` with its default `bias=True`: `m₃ / m₂^(3/2)`. -/
noncomputable def spSkew (l : List ℚ) : ℝ :=
  (momentC l 3 : ℝ) / Real.sqrt (momentC l 2) ^ 3

/-- `scipy.stats.kurtosis` with its defaults `fisher=True, bias=True`:
excess kurtosis `m₄ / m₂² - 3`. -/
def spKurtosis (l : List ℚ) : ℚ :=
  momentC l 4 / momentC l 2 ^ 2 - 3

/-- `np.min`: fold of `min` over the data. -/
def npMin (l : List ℚ) : ℚ :=
  match l with
  | [] => 0
  | x :: xs => xs.foldl min x

/-- `np.max`: fold of `max` over the data. -/
def npMax (l : List ℚ) : ℚ :=
  match l with
  | [] => 0
  | x :: xs => xs.foldl max x

/-- The record returned by `get_stats` (src/app.py lines 26-34). -/
structure Stats where
  mean : ℚ
  median : ℚ
  stdDev : ℝ
  skewness : ℝ
  kurtosis : ℚ
  min : ℚ
  max : ℚ

/-- The statistics record built from the cleaned (NaN-free) returns. -/
noncomputable def statsOf (clean : List ℚ) : Stats :=
  { mean := npMean clean
    median := npMedian clean
    stdDev := npStd clean
    skewness := spSkew clean
    kurtosis := spKurtosis clean
    min := npMin clean
    max := npMax clean }

/-- Embeds `get_stats` (src/app.py lines 21-34): drop the undefined (NaN)
elements; if nothing remains return `None`, otherwise the seven statistics
of the remaining values. -/
noncomputable def get_stats (returns : List (Option ℚ)) : Option Stats :=
  let clean := returns.filterMap id
  if clean.isEmpty then none else some (statsOf clean)

/-! ### Helper lemmas -/

lemma getD_map_range {α : Type*} (f : ℕ → α) {n t : ℕ} (ht : t < n) (d : α) :
    ((List.range n).map f).getD t d = f t := by
  rw [List.getD_eq_getElem?_getD, List.getElem?_map, List.getElem?_range ht]
  rfl

lemma sum_drop_take (l : List ℚ) :
    ∀ (w a : ℕ), a + w ≤ l.length →
      ((l.drop a).take w).sum = ((List.range w).map fun i => l.getD (a + i) 0).sum := by
  intro w
  induction w with
  | zero => intro a _; simp
  | succ n ih =>
    intro a h
    have hlt : a + n < l.length := by omega
    rw [List.take_succ, List.sum_append, List.range_succ, List.map_append, List.sum_append,
      ih a (by omega)]
    congr 1
    rw [List.getElem?_drop]
    simp [List.getD_eq_getElem?_getD, List.getElem?_eq_getElem hlt]

lemma scanl_mul_getD (l : List ℚ) :
    ∀ (a : ℚ) (t : ℕ), t ≤ l.length → (l.scanl (· * ·) a).getD t 0 = a * (l.take t).prod := by
  induction l with
  | nil =>
    intro a t ht
    have : t = 0 := by simpa using ht
    subst this
    simp
  | cons x xs ih =>
    intro a t ht
    rw [List.scanl_cons]
    cases t with
    | zero => simp
    | succ s =>
      have hs : s ≤ xs.length := by simpa using ht
      have : ([a] ++ List.scanl (· * ·) (a * x) xs).getD (s + 1) 0
          = (List.scanl (· * ·) (a * x) xs).getD s 0 := by
        simp [List.getD_eq_getElem?_getD]
      rw [this, ih (a * x) s hs, List.take_cons (Nat.succ_pos s)]
      simp [mul_assoc]

lemma cumprod_getD (l : List ℚ) (t : ℕ) (ht : t < l.length) :
    (cumprod l).getD t 0 = (l.take (t + 1)).prod := by
  cases l with
  | nil => simp at ht
  | cons x xs =>
    have hx : cumprod (x :: xs) = List.scanl (· * ·) (1 * x) xs := by
      rw [cumprod, List.scanl_cons]
      rfl
    have hs : t ≤ xs.length := by
      have := ht
      simp only [List.length_cons] at this
      omega
    rw [hx, scanl_mul_getD xs (1 * x) t hs, List.take_cons (Nat.succ_pos t)]
    simp

lemma length_cumprod (l : List ℚ) : (cumprod l).length = l.length := by
  rw [cumprod]
  cases l with
  | nil => simp
  | cons x xs => rw [List.scanl_cons]; simp [List.length_scanl]

lemma prod_take_range (l : List ℚ) :
    ∀ t, t ≤ l.length → (l.take t).prod = ((List.range t).map fun i => l.getD i 0).prod := by
  intro t
  induction t with
  | zero => intro _; simp
  | succ n ih =>
    intro h
    have hlt : n < l.length := by omega
    rw [List.take_succ, List.prod_append, List.range_succ, List.map_append, List.prod_append,
      ih (by omega)]
    congr 1
    simp [List.getD_eq_getElem?_getD, List.getElem?_eq_getElem hlt]

/-! ### Claim theorems -/

/-- C2: for every price series of length n, `compute_returns` under the
Arithmetic method produces a return series of length n whose element 0 is
undefined and whose element `t > 0` equals `(Cₜ - Cₜ₋₁) / Cₜ₋₁` (whenever
that quotient denotes, i.e. the prior close is nonzero); in particular
prices `[100, 110, 121]` yield returns `[undefined, 0.10, 0.10]`. -/
theorem pct_change_spec :
    (∀ closes : List ℚ,
      (pct_change closes).length = closes.length ∧
      (0 < closes.length → (pct_change closes).getD 0 (some 0) = none) ∧
      ∀ t, 0 < t → t < closes.length → closes.getD (t - 1) 0 ≠ 0 →
        (pct_change closes).getD t none
          = some ((closes.getD t 0 - closes.getD (t - 1) 0) / closes.getD (t - 1) 0)) ∧
    pct_change [100, 110, 121] = [none, some (1 / 10), some (1 / 10)] := by
  constructor
  · intro closes
    refine ⟨by simp [pct_change], ?_, ?_⟩
    · intro h
      rw [pct_change, getD_map_range _ h]
      simp
    · intro t ht hlen hprev
      rw [pct_change, getD_map_range _ hlen, if_neg (by omega)]
      congr 1
      rw [div_sub_one hprev]
  · norm_num [pct_change, List.range_succ]

/-- C2 witness: the general theorem applied to prices `[100, 110, 121]`
at index 1. -/
theorem pct_change_spec_witness :
    0 < 1 ∧ (1 : ℕ) < ([100, 110, 121] : List ℚ).length ∧
      ([100, 110, 121] : List ℚ).getD (1 - 1) 0 ≠ 0 ∧
      (pct_change [100, 110, 121]).getD 1 none
        = some ((([100, 110, 121] : List ℚ).getD 1 0 - ([100, 110, 121] : List ℚ).getD (1 - 1) 0)
            / ([100, 110, 121] : List ℚ).getD (1 - 1) 0) :=
  ⟨by norm_num, by norm_num, by norm_num,
    (pct_change_spec.1 [100, 110, 121]).2.2 1 (by norm_num) (by norm_num) (by norm_num)⟩

/-- C3: the reported final performance percentage `(final_val - 1000) / 10`
equals `(Equity_last - initial_capital) / initial_capital × 100` with the
initial capital 1000 as the exact denominator. -/
theorem performance_spec (finalVal : ℚ) :
    performance finalVal = (finalVal - 1000) / 1000 * 100 := by
  unfold performance
  ring

/-- C5: `moving_average(prices, w)` (for any `w ≥ 1`) is undefined at every
index `< w - 1` and elsewhere equals the arithmetic mean of the closes over
`[t - w + 1, t]`; in particular window 2 over closes `[10, 20, 30, 40]`
yields `[undefined, 15, 25, 35]`. -/
theorem rollingMean_spec :
    (∀ (closes : List ℚ) (w : ℕ), 1 ≤ w →
      (∀ t, t < closes.length → t + 1 < w → (rollingMean closes w).getD t (some 0) = none) ∧
      (∀ t, t < closes.length → w ≤ t + 1 →
        (rollingMean closes w).getD t none
          = some ((((List.range w).map fun i => closes.getD (t + 1 - w + i) 0).sum) / (w : ℚ)))) ∧
    rollingMean [10, 20, 30, 40] 2 = [none, some 15, some 25, some 35] := by
  constructor
  · intro closes w hw
    constructor
    · intro t ht hlt
      rw [rollingMean, getD_map_range _ ht, if_pos hlt]
    · intro t ht hge
      rw [rollingMean, getD_map_range _ ht, if_neg (by omega)]
      congr 2
      exact sum_drop_take closes w (t + 1 - w) (by omega)
  · norm_num [rollingMean, List.range_succ]

/-- C5 witness: the general theorem applied to closes `[10, 20, 30, 40]`
with window 2 at index 1. -/
theorem rollingMean_spec_witness :
    1 ≤ 2 ∧ (1 : ℕ) < ([10, 20, 30, 40] : List ℚ).length ∧ 2 ≤ 1 + 1 ∧
      (rollingMean [10, 20, 30, 40] 2).getD 1 none
        = some ((((List.range 2).map
            fun i => ([10, 20, 30, 40] : List ℚ).getD (1 + 1 - 2 + i) 0).sum) / (2 : ℚ)) :=
  ⟨by norm_num, by norm_num, by norm_num,
    (rollingMean_spec.1 [10, 20, 30, 40] 2 (by norm_num)).2 1 (by norm_num) (by norm_num)⟩

/-- C6: the signal at index t is 1 if the fast MA is strictly greater than
the slow MA at t and 0 otherwise; any position where either MA is undefined
yields 0, and the signal is always 0 or 1 (never undefined). -/
theorem signalSeries_spec (fast slow : List (Option ℚ)) :
    (∀ t, t < (signalSeries fast slow).length →
      (∀ a b, fast.getD t none = some a → slow.getD t none = some b →
        (signalSeries fast slow).getD t 0 = if b < a then 1 else 0) ∧
      (fast.getD t none = none ∨ slow.getD t none = none →
        (signalSeries fast slow).getD t 0 = 0)) ∧
    (∀ t, (signalSeries fast slow).getD t 0 = 0 ∨ (signalSeries fast slow).getD t 0 = 1) := by
  constructor
  · intro t ht
    have hlen : t < (List.zipWith
        (fun f s => match f, s with
          | some a, some b => if b < a then (1 : ℤ) else 0
          | _, _ => 0) fast slow).length := ht
    have hf : t < fast.length := by
      rw [List.length_zipWith] at hlen; omega
    have hs : t < slow.length := by
      rw [List.length_zipWith] at hlen; omega
    constructor
    · intro a b ha hb
      rw [List.getD_eq_getElem _ _ hf] at ha
      rw [List.getD_eq_getElem _ _ hs] at hb
      rw [List.getD_eq_getElem _ _ ht]
      simp only [signalSeries]
      rw [List.getElem_zipWith, ha, hb]
    · intro h
      rw [List.getD_eq_getElem _ _ ht]
      simp only [signalSeries]
      rw [List.getElem_zipWith]
      rcases h with h | h
      · rw [List.getD_eq_getElem _ _ hf] at h
        rw [h]
      · rw [List.getD_eq_getElem _ _ hs] at h
        rw [h]
        rcases fast[t] with _ | a <;> rfl
  · intro t
    by_cases ht : t < (signalSeries fast slow).length
    · rw [List.getD_eq_getElem _ _ ht]
      simp only [signalSeries]
      rw [List.getElem_zipWith]
      have hf : t < fast.length := by
        simp only [signalSeries, List.length_zipWith] at ht; omega
      have hs : t < slow.length := by
        simp only [signalSeries, List.length_zipWith] at ht; omega
      rcases fast[t] with _ | a
      · left; rfl
      · rcases slow[t] with _ | b
        · left; rfl
        · by_cases hab : b < a
          · right; simp [hab]
          · left; simp [hab]
    · left
      rw [List.getD_eq_default]
      omega

/-- C6 witness: the theorem applied to `fast = [some 2]`, `slow = [some 1]`
at index 0. -/
theorem signalSeries_spec_witness :
    (0 : ℕ) < (signalSeries [some 2] [some 1]).length ∧
      ([some (2 : ℚ)] : List (Option ℚ)).getD 0 none = some 2 ∧
      ([some (1 : ℚ)] : List (Option ℚ)).getD 0 none = some 1 ∧
      (signalSeries [some 2] [some 1]).getD 0 0 = if (1 : ℚ) < 2 then 1 else 0 :=
  ⟨by norm_num [signalSeries], by norm_num, by norm_num,
    ((signalSeries_spec [some 2] [some 1]).1 0 (by norm_num [signalSeries])).1 2 1
      (by norm_num) (by norm_num)⟩

/-- C1 counterexample: on the spec's own scenario — signal `[0, 1, 1]`,
returns `[undefined, 0.05, 0.10]`, initial capital 1000 — the simulator does
NOT produce the claimed equity curve `[1000, 1000, 1050]`: the lagged
strategy return at index 2 is `signal₁ × return₂ = 1 × 0.10`, so the equity
curve is `[1000, 1000, 1100]`. -/
theorem simulate_scenario_counterexample :
    simulate [0, 1, 1] [none, some (1 / 20), some (1 / 10)] 1000 ≠ [1000, 1000, 1050] := by
  norm_num [simulate, equityCurve, strat_ret, cumprod, List.range_succ, List.scanl]

/-- C1 (amended): the backtest simulator lags the signal by one period and
compounds — the strategy return at `t > 0` is `signalₜ₋₁ × returnₜ` (with
index 0 undefined, and undefined wherever the return is undefined), the
equity at `t` is `init × Π_{i ≤ t} (1 + strategy_returnᵢ)` with undefined
strategy returns counted as 0; the scenario signal `[0, 1, 1]`, returns
`[undefined, 0.05, 0.10]`, capital 1000 yields strategy returns
`[undefined, 0, 0.10]` and equity `[1000, 1000, 1100]` (not 1050). -/
theorem simulate_spec :
    (∀ (signal : List ℤ) (returns : List (Option ℚ)) (init : ℚ),
      (simulate signal returns init).length = returns.length ∧
      (0 < returns.length → (strat_ret signal returns).getD 0 (some 0) = none) ∧
      (∀ t, 0 < t → t < returns.length →
        (strat_ret signal returns).getD t none
          = (returns.getD t none).map fun r => (signal.getD (t - 1) 0 : ℚ) * r) ∧
      (∀ t, t < returns.length →
        (simulate signal returns init).getD t 0
          = init * ((List.range (t + 1)).map
              fun i => 1 + ((strat_ret signal returns).getD i none).getD 0).prod)) ∧
    strat_ret [0, 1, 1] [none, some (1 / 20), some (1 / 10)]
        = [none, some 0, some (1 / 10)] ∧
    simulate [0, 1, 1] [none, some (1 / 20), some (1 / 10)] 1000 = [1000, 1000, 1100] := by
  refine ⟨?_, ?_, ?_⟩
  · intro signal returns init
    have hlenS : ∀ t, t < returns.length → (strat_ret signal returns).length = returns.length := by
      intro _ _; simp [strat_ret]
    refine ⟨?_, ?_, ?_, ?_⟩
    · simp [simulate, equityCurve, length_cumprod, strat_ret]
    · intro h
      rw [strat_ret, getD_map_range _ h]
      simp
    · intro t ht hlen
      rw [strat_ret, getD_map_range _ hlen, if_neg (by omega)]
    · intro t ht
      have hmap : ∀ i, i < returns.length →
          ((strat_ret signal returns).map fun o => 1 + o.getD 0).getD i 0
            = 1 + ((strat_ret signal returns).getD i none).getD 0 := by
        intro i hi
        have hi' : i < (strat_ret signal returns).length := by rw [hlenS t ht]; exact hi
        rw [List.getD_eq_getElem _ _ (by simpa using hi'), List.getElem_map,
          List.getD_eq_getElem _ _ hi']
      have hlen2 : ((strat_ret signal returns).map fun o => 1 + o.getD 0).length
          = returns.length := by simp [strat_ret]
      rw [simulate, equityCurve]
      have htc : t < (cumprod ((strat_ret signal returns).map fun o => 1 + o.getD 0)).length := by
        rw [length_cumprod, hlen2]; exact ht
      rw [List.getD_eq_getElem _ _ (by simpa using htc), List.getElem_map,
        ← List.getD_eq_getElem _ 0 htc,
        cumprod_getD _ t (by rw [hlen2]; exact ht),
        prod_take_range _ (t + 1) (by rw [hlen2]; omega)]
      congr 1
      have heq : (List.range (t + 1)).map
            (fun i => ((strat_ret signal returns).map fun o => 1 + o.getD 0).getD i 0)
          = (List.range (t + 1)).map
            (fun i => 1 + ((strat_ret signal returns).getD i none).getD 0) :=
        List.map_congr_left fun i hi => hmap i (by rw [List.mem_range] at hi; omega)
      rw [heq]
  · norm_num [strat_ret, List.range_succ]
  · norm_num [simulate, equityCurve, strat_ret, cumprod, List.range_succ, List.scanl]

/-- C1 witness: the general part of the amended theorem applied to the
scenario at index 2. -/
theorem simulate_spec_witness :
    0 < 2 ∧ (2 : ℕ) < ([none, some (1 / 20), some (1 / 10)] : List (Option ℚ)).length ∧
      (strat_ret [0, 1, 1] [none, some (1 / 20), some (1 / 10)]).getD 2 none
        = (([none, some (1 / 20), some (1 / 10)] : List (Option ℚ)).getD 2 none).map
            fun r => (([0, 1, 1] : List ℤ).getD (2 - 1) 0 : ℚ) * r :=
  ⟨by norm_num, by norm_num,
    (simulate_spec.1 [0, 1, 1] [none, some (1 / 20), some (1 / 10)] 1000).2.2.1 2
      (by norm_num) (by norm_num)⟩

/-- C4 counterexample: the claim says a division by zero (zero prior close)
marks the element undefined; but for closes `[0, 1]` the element at index 1
is `log(1/0) = log(inf) = +inf` under numpy float semantics — a defined
(non-NaN) value, and no error is signaled anywhere in the code. -/
theorem logReturn_divzero_counterexample :
    (logReturnClassSeries [0, 1]).getD 1 .nan ≠ LogRetClass.nan := by
  have h : (logReturnClassSeries [0, 1]).getD 1 .nan = .posInf := by
    norm_num [logReturnClassSeries, logReturnClass, List.range_succ]
  rw [h]
  decide

/-- C4 (amended): under the Logarithmic method the code signals no error at
all; an element whose close-to-prior-close ratio is negative becomes NaN
(undefined) without aborting the rest of the series, a positive close over a
zero prior close becomes `+inf`, a zero close over a nonzero prior close
becomes `-inf` (defined non-finite values, not undefined), a nonpositive
close over a zero prior close becomes NaN, and a positive ratio gives an
ordinary finite return. -/
theorem logReturn_class_spec (closes : List ℚ) :
    (logReturnClassSeries closes).length = closes.length ∧
    ∀ t, 0 < t → t < closes.length →
      (closes.getD t 0 * closes.getD (t - 1) 0 < 0 →
        (logReturnClassSeries closes).getD t .finite = .nan) ∧
      (closes.getD (t - 1) 0 = 0 → 0 < closes.getD t 0 →
        (logReturnClassSeries closes).getD t .nan = .posInf) ∧
      (closes.getD (t - 1) 0 = 0 → closes.getD t 0 ≤ 0 →
        (logReturnClassSeries closes).getD t .finite = .nan) ∧
      (closes.getD (t - 1) 0 ≠ 0 → closes.getD t 0 = 0 →
        (logReturnClassSeries closes).getD t .nan = .negInf) ∧
      (0 < closes.getD t 0 * closes.getD (t - 1) 0 →
        (logReturnClassSeries closes).getD t .nan = .finite) := by
  constructor
  · simp [logReturnClassSeries]
  · intro t ht hlen
    have hget : ∀ d : LogRetClass,
        (logReturnClassSeries closes).getD t d
          = logReturnClass (closes.getD (t - 1) 0) (closes.getD t 0) := by
      intro d
      rw [logReturnClassSeries, getD_map_range _ hlen, if_neg (by omega)]
    set prev := closes.getD (t - 1) 0 with hp
    set cur := closes.getD t 0 with hc
    refine ⟨?_, ?_, ?_, ?_, ?_⟩
    · intro h
      have hprev : prev ≠ 0 := by
        intro h0
        rw [h0, mul_zero] at h
        exact absurd h (lt_irrefl 0)
      have hdiv : cur / prev < 0 := by
        rcases mul_neg_iff.mp h with ⟨h1, h2⟩ | ⟨h1, h2⟩
        · exact div_neg_of_pos_of_neg h1 h2
        · exact div_neg_of_neg_of_pos h1 h2
      rw [hget, logReturnClass, if_neg hprev, if_neg (by linarith), if_neg (ne_of_lt hdiv)]
    · intro h0 hcur
      rw [hget, logReturnClass, if_pos h0, if_pos hcur]
    · intro h0 hcur
      rw [hget, logReturnClass, if_pos h0, if_neg (not_lt.mpr hcur)]
    · intro hprev hcur
      rw [hget, logReturnClass, if_neg hprev, hcur]
      norm_num
    · intro h
      have hprev : prev ≠ 0 := by
        intro h0
        rw [h0, mul_zero] at h
        exact absurd h (lt_irrefl 0)
      have hdiv : 0 < cur / prev := by
        rcases mul_pos_iff.mp h with ⟨h1, h2⟩ | ⟨h1, h2⟩
        · exact div_pos_iff.mpr (Or.inl ⟨h1, h2⟩)
        · exact div_pos_iff.mpr (Or.inr ⟨h1, h2⟩)
      rw [hget, logReturnClass, if_neg hprev, if_pos hdiv]

/-- C4 witness: the amended theorem applied to closes `[1, -2]` at index 1
(negative ratio, hence NaN). -/
theorem logReturn_class_spec_witness :
    0 < 1 ∧ (1 : ℕ) < ([1, -2] : List ℚ).length ∧
      ([1, -2] : List ℚ).getD 1 0 * ([1, -2] : List ℚ).getD (1 - 1) 0 < 0 ∧
      (logReturnClassSeries [1, -2]).getD 1 .finite = .nan :=
  ⟨by norm_num, by norm_num, by norm_num,
    ((logReturn_class_spec [1, -2]).2 1 (by norm_num) (by norm_num)).1 (by norm_num)⟩

/-- C9: round-trip of logarithmic returns — for every price series with
strictly positive closes and every index `t > 0`, the logarithmic return is
defined and `exp(rₜ) × Cₜ₋₁ = Cₜ` exactly (exact-arithmetic embedding). -/
theorem logReturns_roundtrip (closes : List ℚ) (hpos : ∀ c ∈ closes, 0 < c) :
    ∀ t, 0 < t → t < closes.length →
      ∃ r : ℝ, (logReturns closes).getD t none = some r ∧
        Real.exp r * (closes.getD (t - 1) 0 : ℝ) = (closes.getD t 0 : ℝ) := by
  intro t ht hlen
  have hcur : (0 : ℚ) < closes.getD t 0 := by
    rw [List.getD_eq_getElem _ _ hlen]
    exact hpos _ (List.getElem_mem hlen)
  have h1 : t - 1 < closes.length := by omega
  have hprev : (0 : ℚ) < closes.getD (t - 1) 0 := by
    rw [List.getD_eq_getElem _ _ h1]
    exact hpos _ (List.getElem_mem h1)
  have hprevR : (0 : ℝ) < (closes.getD (t - 1) 0 : ℝ) := by exact_mod_cast hprev
  have hcurR : (0 : ℝ) < (closes.getD t 0 : ℝ) := by exact_mod_cast hcur
  refine ⟨Real.log ((closes.getD t 0 : ℝ) / (closes.getD (t - 1) 0 : ℝ)), ?_, ?_⟩
  · rw [logReturns, getD_map_range _ hlen, if_neg (by omega)]
  · rw [Real.exp_log (div_pos hcurR hprevR), div_mul_cancel₀ _ (ne_of_gt hprevR)]

/-- C9 witness: the theorem applied to closes `[1, 2]` at index 1. -/
theorem logReturns_roundtrip_witness :
    (∀ c ∈ ([1, 2] : List ℚ), 0 < c) ∧ 0 < 1 ∧ (1 : ℕ) < ([1, 2] : List ℚ).length ∧
      ∃ r : ℝ, (logReturns [1, 2]).getD 1 none = some r ∧
        Real.exp r * (([1, 2] : List ℚ).getD (1 - 1) 0 : ℝ) = (([1, 2] : List ℚ).getD 1 0 : ℝ) :=
  ⟨by norm_num [List.forall_mem_cons], by norm_num, by norm_num,
    logReturns_roundtrip [1, 2] (by norm_num [List.forall_mem_cons]) 1 (by norm_num)
      (by norm_num)⟩

/-- C7: `get_stats` drops the undefined elements first and returns `None`
exactly when no defined element remains (in particular on an all-undefined
series); otherwise it returns a statistics record, never a NaN-filled one. -/
theorem get_stats_none_iff (returns : List (Option ℚ)) :
    get_stats returns = none ↔ returns.filterMap id = [] := by
  simp only [get_stats]
  split
  · rename_i h
    rw [List.isEmpty_iff] at h
    simp [h]
  · rename_i h
    rw [List.isEmpty_iff] at h
    simp [h]

/-! ### Helper lemmas for the statistics engine -/

lemma foldl_min_le_init (xs : List ℚ) : ∀ a : ℚ, xs.foldl min a ≤ a := by
  induction xs with
  | nil => intro a; simp
  | cons y ys ih =>
    intro a
    calc (y :: ys).foldl min a = ys.foldl min (min a y) := by simp [List.foldl_cons]
    _ ≤ min a y := ih (min a y)
    _ ≤ a := min_le_left a y

lemma foldl_min_le_mem (xs : List ℚ) : ∀ (a x : ℚ), x ∈ xs → xs.foldl min a ≤ x := by
  induction xs with
  | nil => intro a x hx; simp at hx
  | cons y ys ih =>
    intro a x hx
    rw [List.foldl_cons]
    rcases List.mem_cons.mp hx with h | h
    · subst h
      calc ys.foldl min (min a x) ≤ min a x := foldl_min_le_init ys (min a x)
      _ ≤ x := min_le_right a x
    · exact ih (min a y) x h

lemma foldl_min_mem (xs : List ℚ) : ∀ a : ℚ, xs.foldl min a = a ∨ xs.foldl min a ∈ xs := by
  induction xs with
  | nil => intro a; left; rfl
  | cons y ys ih =>
    intro a
    rw [List.foldl_cons]
    rcases ih (min a y) with h | h
    · rcases le_total a y with hay | hya
      · left; rw [h, min_eq_left hay]
      · right; rw [h, min_eq_right hya]; exact List.mem_cons_self y ys
    · right; exact List.mem_cons_of_mem y h

lemma foldl_max_init_le (xs : List ℚ) : ∀ a : ℚ, a ≤ xs.foldl max a := by
  induction xs with
  | nil => intro a; simp
  | cons y ys ih =>
    intro a
    calc a ≤ max a y := le_max_left a y
    _ ≤ ys.foldl max (max a y) := ih (max a y)
    _ = (y :: ys).foldl max a := by simp [List.foldl_cons]

lemma foldl_max_mem_le (xs : List ℚ) : ∀ (a x : ℚ), x ∈ xs → x ≤ xs.foldl max a := by
  induction xs with
  | nil => intro a x hx; simp at hx
  | cons y ys ih =>
    intro a x hx
    rw [List.foldl_cons]
    rcases List.mem_cons.mp hx with h | h
    · subst h
      calc x ≤ max a x := le_max_right a x
      _ ≤ ys.foldl max (max a x) := foldl_max_init_le ys (max a x)
    · exact ih (max a y) x h

lemma foldl_max_mem (xs : List ℚ) : ∀ a : ℚ, xs.foldl max a = a ∨ xs.foldl max a ∈ xs := by
  induction xs with
  | nil => intro a; left; rfl
  | cons y ys ih =>
    intro a
    rw [List.foldl_cons]
    rcases ih (max a y) with h | h
    · rcases le_total a y with hay | hya
      · right; rw [h, max_eq_right hay]; exact List.mem_cons_self y ys
      · left; rw [h, max_eq_left hya]
    · right; exact List.mem_cons_of_mem y h

lemma npMin_le (l : List ℚ) (hl : l ≠ []) : ∀ x ∈ l, npMin l ≤ x := by
  cases l with
  | nil => exact absurd rfl hl
  | cons y ys =>
    intro x hx
    rcases List.mem_cons.mp hx with h | h
    · subst h; exact foldl_min_le_init ys x
    · exact foldl_min_le_mem ys y x h

lemma npMin_mem (l : List ℚ) (hl : l ≠ []) : npMin l ∈ l := by
  cases l with
  | nil => exact absurd rfl hl
  | cons y ys =>
    show ys.foldl min y ∈ y :: ys
    rcases foldl_min_mem ys y with h | h
    · rw [h]; exact List.mem_cons_self y ys
    · exact List.mem_cons_of_mem y h

lemma le_npMax (l : List ℚ) (hl : l ≠ []) : ∀ x ∈ l, x ≤ npMax l := by
  cases l with
  | nil => exact absurd rfl hl
  | cons y ys =>
    intro x hx
    rcases List.mem_cons.mp hx with h | h
    · subst h; exact foldl_max_init_le ys x
    · exact foldl_max_mem_le ys y x h

lemma npMax_mem (l : List ℚ) (hl : l ≠ []) : npMax l ∈ l := by
  cases l with
  | nil => exact absurd rfl hl
  | cons y ys =>
    show ys.foldl max y ∈ y :: ys
    rcases foldl_max_mem ys y with h | h
    · rw [h]; exact List.mem_cons_self y ys
    · exact List.mem_cons_of_mem y h

lemma le_sum_of_all_le (l : List ℚ) (a : ℚ) (h : ∀ x ∈ l, a ≤ x) :
    (l.length : ℚ) * a ≤ l.sum := by
  induction l with
  | nil => simp
  | cons y ys ih =>
    have hy := h y (List.mem_cons_self y ys)
    have hrec := ih fun x hx => h x (List.mem_cons_of_mem y hx)
    simp only [List.length_cons, List.sum_cons]
    push_cast
    linarith

lemma sum_le_of_all_le (l : List ℚ) (a : ℚ) (h : ∀ x ∈ l, x ≤ a) :
    l.sum ≤ (l.length : ℚ) * a := by
  induction l with
  | nil => simp
  | cons y ys ih =>
    have hy := h y (List.mem_cons_self y ys)
    have hrec := ih fun x hx => h x (List.mem_cons_of_mem y hx)
    simp only [List.length_cons, List.sum_cons]
    push_cast
    linarith

lemma length_pos_rat (l : List ℚ) (hl : l ≠ []) : (0 : ℚ) < l.length := by
  exact_mod_cast List.length_pos.mpr hl

lemma npMin_le_npMean (l : List ℚ) (hl : l ≠ []) : npMin l ≤ npMean l := by
  rw [npMean, le_div_iff₀ (length_pos_rat l hl)]
  have := le_sum_of_all_le l (npMin l) (npMin_le l hl)
  linarith

lemma npMean_le_npMax (l : List ℚ) (hl : l ≠ []) : npMean l ≤ npMax l := by
  rw [npMean, div_le_iff₀ (length_pos_rat l hl)]
  have := sum_le_of_all_le l (npMax l) (le_npMax l hl)
  linarith

lemma npMedian_bounds (l : List ℚ) (hl : l ≠ []) :
    npMin l ≤ npMedian l ∧ npMedian l ≤ npMax l := by
  have hperm : (l.insertionSort (· ≤ ·)).Perm l := List.perm_insertionSort _ l
  have hlen : (l.insertionSort (· ≤ ·)).length = l.length := hperm.length_eq
  have hn : 0 < l.length := List.length_pos.mpr hl
  have hmem : ∀ i, i < l.length →
      npMin l ≤ (l.insertionSort (· ≤ ·)).getD i 0 ∧
        (l.insertionSort (· ≤ ·)).getD i 0 ≤ npMax l := by
    intro i hi
    have hi' : i < (l.insertionSort (· ≤ ·)).length := by rw [hlen]; exact hi
    rw [List.getD_eq_getElem _ _ hi']
    have hx : (l.insertionSort (· ≤ ·))[i] ∈ l :=
      hperm.mem_iff.mp (List.getElem_mem hi')
    exact ⟨npMin_le l hl _ hx, le_npMax l hl _ hx⟩
  simp only [npMedian]
  by_cases hodd : l.length % 2 = 1
  · rw [if_pos hodd]
    exact hmem _ (by omega)
  · rw [if_neg hodd]
    have h1 := hmem (l.length / 2 - 1) (by omega)
    have h2 := hmem (l.length / 2) (by omega)
    constructor
    · linarith [h1.1, h2.1]
    · linarith [h1.2, h2.2]

lemma sum_nonneg_eq_zero (l : List ℚ) (h : ∀ x ∈ l, 0 ≤ x) (hs : l.sum = 0) :
    ∀ x ∈ l, x = 0 := by
  induction l with
  | nil => simp
  | cons y ys ih =>
    have hy : 0 ≤ y := h y (List.mem_cons_self y ys)
    have hys : 0 ≤ ys.sum := List.sum_nonneg fun x hx => h x (List.mem_cons_of_mem y hx)
    have hsum : y + ys.sum = 0 := by simpa using hs
    intro x hx
    rcases List.mem_cons.mp hx with h' | h'
    · subst h'; linarith
    · exact ih (fun z hz => h z (List.mem_cons_of_mem y hz)) (by linarith) x h'

lemma momentC2_nonneg (l : List ℚ) : 0 ≤ momentC l 2 := by
  rw [momentC]
  apply div_nonneg
  · apply List.sum_nonneg
    intro x hx
    obtain ⟨z, _, rfl⟩ := List.mem_map.mp hx
    positivity
  · positivity

lemma momentC2_zero_all_eq (l : List ℚ) (hl : l ≠ []) (h2 : momentC l 2 = 0) :
    ∀ x ∈ l, x = npMean l := by
  have hn : (0 : ℚ) < l.length := length_pos_rat l hl
  have hsum : (l.map fun x => (x - npMean l) ^ 2).sum = 0 := by
    rw [momentC, div_eq_zero_iff] at h2
    rcases h2 with h | h
    · exact h
    · exact absurd h (by positivity)
  intro x hx
  have hall := sum_nonneg_eq_zero _ (fun y hy => by
    obtain ⟨z, _, rfl⟩ := List.mem_map.mp hy
    positivity) hsum
  have hx2 : (x - npMean l) ^ 2 = 0 := hall _ (List.mem_map_of_mem _ hx)
  have := pow_eq_zero_iff (two_ne_zero) |>.mp hx2
  linarith [this]

lemma cast_moment_sum (l : List ℚ) (k : ℕ) :
    (((l.map fun x => (x - npMean l) ^ k).sum : ℚ) : ℝ)
      = (l.map fun x : ℚ => ((x : ℝ) - (npMean l : ℝ)) ^ k).sum := by
  rw [show (((l.map fun x => (x - npMean l) ^ k).sum : ℚ) : ℝ)
      = (Rat.castHom ℝ) (l.map fun x => (x - npMean l) ^ k).sum from rfl]
  rw [map_list_sum (Rat.castHom ℝ), List.map_map]
  refine congrArg List.sum (List.map_congr_left fun x _ => ?_)
  show ((((x - npMean l) ^ k : ℚ)) : ℝ) = ((x : ℝ) - (npMean l : ℝ)) ^ k
  push_cast
  ring

lemma get_stats_eq_statsOf (returns : List (Option ℚ)) (s : Stats)
    (h : get_stats returns = some s) :
    returns.filterMap id ≠ [] ∧ s = statsOf (returns.filterMap id) := by
  by_cases hc : (returns.filterMap id).isEmpty
  · simp only [get_stats] at h
    rw [if_pos hc] at h
    exact absurd h (by simp)
  · constructor
    · intro h0
      exact hc (by simp [h0])
    · simp only [get_stats] at h
      rw [if_neg hc] at h
      exact (Option.some_injective _ h).symm

/-- C8: whenever `get_stats` returns a record, its fields are exactly the
mean (`sum / n`), the median (middle of a sorted permutation), the
population standard deviation (nonnegative, squaring to the mean squared
deviation with divisor `n`, not `n - 1`), the skewness (`m₃ / σ³`), the
excess kurtosis (`m₄ / σ⁴ - 3`, so that the normal reference value maps to
0), and the minimum and maximum of the defined returns. -/
theorem get_stats_values (returns : List (Option ℚ)) (s : Stats)
    (h : get_stats returns = some s) :
    s.mean * (returns.filterMap id).length = (returns.filterMap id).sum ∧
    (∃ l' : List ℚ, l'.Perm (returns.filterMap id) ∧ l'.Sorted (· ≤ ·) ∧
      s.median = (if (returns.filterMap id).length % 2 = 1
        then l'.getD ((returns.filterMap id).length / 2) 0
        else (l'.getD ((returns.filterMap id).length / 2 - 1) 0
          + l'.getD ((returns.filterMap id).length / 2) 0) / 2)) ∧
    (0 ≤ s.stdDev ∧
      s.stdDev ^ 2 * ((returns.filterMap id).length : ℝ)
        = ((returns.filterMap id).map fun x : ℚ => ((x : ℝ) - (s.mean : ℝ)) ^ 2).sum) ∧
    s.skewness * s.stdDev ^ 3 * ((returns.filterMap id).length : ℝ)
      = ((returns.filterMap id).map fun x : ℚ => ((x : ℝ) - (s.mean : ℝ)) ^ 3).sum ∧
    ((s.kurtosis : ℝ) + 3) * s.stdDev ^ 4 * ((returns.filterMap id).length : ℝ)
      = ((returns.filterMap id).map fun x : ℚ => ((x : ℝ) - (s.mean : ℝ)) ^ 4).sum ∧
    (s.min ∈ returns.filterMap id ∧ ∀ x ∈ returns.filterMap id, s.min ≤ x) ∧
    (s.max ∈ returns.filterMap id ∧ ∀ x ∈ returns.filterMap id, x ≤ s.max) := by
  obtain ⟨hne, hs⟩ := get_stats_eq_statsOf returns s h
  subst hs
  set clean := returns.filterMap id with hclean
  have hn : (0 : ℚ) < clean.length := length_pos_rat clean hne
  have hm2 : (0 : ℚ) ≤ momentC clean 2 := momentC2_nonneg clean
  have hstd2 : npStd clean ^ 2 = ((momentC clean 2 : ℚ) : ℝ) := by
    rw [npStd]
    exact Real.sq_sqrt (by exact_mod_cast hm2)
  have hqmul : ∀ k : ℕ, momentC clean k * clean.length
      = (clean.map fun x => (x - npMean clean) ^ k).sum := by
    intro k
    rw [momentC, div_mul_cancel₀ _ (ne_of_gt hn)]
  have hcastmul : ∀ k : ℕ,
      ((momentC clean k : ℚ) : ℝ) * (clean.length : ℝ)
        = (clean.map fun x : ℚ => ((x : ℝ) - (npMean clean : ℝ)) ^ k).sum := by
    intro k
    calc ((momentC clean k : ℚ) : ℝ) * (clean.length : ℝ)
        = ((momentC clean k * clean.length : ℚ) : ℝ) := by push_cast; ring
      _ = (((clean.map fun x => (x - npMean clean) ^ k).sum : ℚ) : ℝ) := by rw [hqmul k]
      _ = _ := cast_moment_sum clean k
  have hallzero : momentC clean 2 = 0 →
      ∀ k : ℕ, (clean.map fun x : ℚ => ((x : ℝ) - (npMean clean : ℝ)) ^ k).sum
        = ((momentC clean k : ℚ) : ℝ) * (clean.length : ℝ) := fun _ k => (hcastmul k).symm
  refine ⟨?_, ?_, ⟨Real.sqrt_nonneg _, ?_⟩, ?_, ?_,
    ⟨npMin_mem clean hne, npMin_le clean hne⟩,
    ⟨npMax_mem clean hne, le_npMax clean hne⟩⟩
  · show npMean clean * (clean.length : ℚ) = clean.sum
    rw [npMean, div_mul_cancel₀ _ (ne_of_gt hn)]
  · refine ⟨clean.insertionSort (· ≤ ·), List.perm_insertionSort _ _,
      List.sorted_insertionSort _ _, ?_⟩
    rfl
  · show npStd clean ^ 2 * (clean.length : ℝ)
        = (clean.map fun x : ℚ => ((x : ℝ) - (npMean clean : ℝ)) ^ 2).sum
    rw [hstd2]
    exact hcastmul 2
  · show spSkew clean * npStd clean ^ 3 * (clean.length : ℝ)
      = (clean.map fun x : ℚ => ((x : ℝ) - (npMean clean : ℝ)) ^ 3).sum
    by_cases h2 : momentC clean 2 = 0
    · have hstd0 : npStd clean = 0 := by
        rw [npStd, h2]
        simp
      rw [hstd0]
      have hall := momentC2_zero_all_eq clean hne h2
      have hz : ∀ y ∈ (clean.map fun x : ℚ => ((x : ℝ) - (npMean clean : ℝ)) ^ 3), y = 0 := by
        intro y hy
        obtain ⟨z, hz', rfl⟩ := List.mem_map.mp hy
        rw [hall z hz']
        simp
      rw [List.sum_eq_zero hz]
      ring
    · have hm2pos : (0 : ℚ) < momentC clean 2 :=
        lt_of_le_of_ne hm2 (Ne.symm h2)
      have hstdpos : (0 : ℝ) < npStd clean :=
        Real.sqrt_pos.mpr (by exact_mod_cast hm2pos)
      have hmain : spSkew clean * npStd clean ^ 3 = ((momentC clean 3 : ℚ) : ℝ) := by
        rw [spSkew, npStd, div_mul_cancel₀]
        exact pow_ne_zero 3 (ne_of_gt (by rw [← npStd]; exact hstdpos))
      rw [hmain]
      exact hcastmul 3
  · show ((spKurtosis clean : ℝ) + 3) * npStd clean ^ 4 * (clean.length : ℝ)
      = (clean.map fun x : ℚ => ((x : ℝ) - (npMean clean : ℝ)) ^ 4).sum
    have hstd4 : npStd clean ^ 4 = ((momentC clean 2 : ℚ) : ℝ) ^ 2 := by
      have : npStd clean ^ 4 = (npStd clean ^ 2) ^ 2 := by ring
      rw [this, hstd2]
    by_cases h2 : momentC clean 2 = 0
    · have hk : spKurtosis clean = -3 := by
        rw [spKurtosis, h2]
        norm_num
      rw [hk, hstd4, h2]
      have hall := momentC2_zero_all_eq clean hne h2
      have hz : ∀ y ∈ (clean.map fun x : ℚ => ((x : ℝ) - (npMean clean : ℝ)) ^ 4), y = 0 := by
        intro y hy
        obtain ⟨z, hz', rfl⟩ := List.mem_map.mp hy
        rw [hall z hz']
        simp
      rw [List.sum_eq_zero hz]
      norm_num
    · have hmain : ((spKurtosis clean : ℝ) + 3) * npStd clean ^ 4
          = ((momentC clean 4 : ℚ) : ℝ) := by
        rw [spKurtosis, hstd4]
        have : ((momentC clean 4 / momentC clean 2 ^ 2 - 3 : ℚ) : ℝ) + 3
            = ((momentC clean 4 / momentC clean 2 ^ 2 : ℚ) : ℝ) := by
          push_cast
          ring
        rw [this]
        rw [show ((momentC clean 4 / momentC clean 2 ^ 2 : ℚ) : ℝ)
            * ((momentC clean 2 : ℚ) : ℝ) ^ 2
            = ((momentC clean 4 / momentC clean 2 ^ 2 * momentC clean 2 ^ 2 : ℚ) : ℝ) by
          push_cast; ring]
        rw [div_mul_cancel₀ _ (pow_ne_zero 2 h2)]
      rw [hmain]
      exact hcastmul 4

/-- C8 witness: the theorem applied to `[some 1, some 3, none]`, whose
cleaned data is `[1, 3]`; the hypothesis is discharged by `rfl` and the
minimum clause is extracted. -/
theorem get_stats_values_witness :
    get_stats [some 1, some 3, none] = some (statsOf [1, 3]) ∧
      ((statsOf [1, 3]).min ∈ ([some 1, some 3, none] : List (Option ℚ)).filterMap id ∧
        ∀ x ∈ ([some 1, some 3, none] : List (Option ℚ)).filterMap id,
          (statsOf [1, 3]).min ≤ x) :=
  ⟨rfl, (get_stats_values [some 1, some 3, none] (statsOf [1, 3]) rfl).2.2.2.2.2.1⟩

/-- C10 (implicit): whenever `get_stats` returns a record, its values
satisfy `Min ≤ Mean ≤ Max`, `Min ≤ Median ≤ Max`, and `Std Dev ≥ 0`. -/
theorem get_stats_ordered (returns : List (Option ℚ)) (s : Stats)
    (h : get_stats returns = some s) :
    s.min ≤ s.mean ∧ s.mean ≤ s.max ∧ s.min ≤ s.median ∧ s.median ≤ s.max ∧
      0 ≤ s.stdDev := by
  obtain ⟨hne, hs⟩ := get_stats_eq_statsOf returns s h
  subst hs
  have hmed := npMedian_bounds (returns.filterMap id) hne
  exact ⟨npMin_le_npMean _ hne, npMean_le_npMax _ hne, hmed.1, hmed.2,
    Real.sqrt_nonneg _⟩

/-- C10 witness: the theorem applied to `[some 2, none, some 5]`, whose
cleaned data is `[2, 5]`; the hypothesis is discharged by `rfl`. -/
theorem get_stats_ordered_witness :
    get_stats [some 2, none, some 5] = some (statsOf [2, 5]) ∧
      ((statsOf [2, 5]).min ≤ (statsOf [2, 5]).mean ∧
        (statsOf [2, 5]).mean ≤ (statsOf [2, 5]).max ∧
        (statsOf [2, 5]).min ≤ (statsOf [2, 5]).median ∧
        (statsOf [2, 5]).median ≤ (statsOf [2, 5]).max ∧
        0 ≤ (statsOf [2, 5]).stdDev) :=
  ⟨rfl, get_stats_ordered [some 2, none, some 5] (statsOf [2, 5]) rfl⟩

end App
